import Mathlib

/-
Verification of the page-tree models in mezzanine/pages/models.py.

The database of stored pages is modelled as a list of records; methods that
read related objects through the ORM (self.parent, querysets) are modelled as
lookups by primary key in that list.  Parent-chain walks, which the source
performs with unbounded while loops, are modelled with an explicit fuel
argument; the theorems carry hypotheses (referential integrity, acyclicity,
distinct primary keys) under which the fuel never runs out, matching the
situations in which the Python loops terminate.
-/

set_option maxHeartbeats 1000000

namespace Mezzanine

/-- A page record, after the fields of the `Page` model that the verified
methods read or write: primary key, nullable parent foreign key, title, slug,
the derived `titles` path and `content_model` fields, and whether the row has
been saved (`id is not None` in Django).  The primary key is taken as given;
Django assigns it on first insert. -/
structure Page where
  pk : Nat
  parentId : Option Nat
  title : String
  slug : String
  titles : String
  contentModel : String
  hasId : Bool
deriving Repr, DecidableEq

/-- The page table: the list of stored `Page` rows. -/
abbrev Db := List Page

/-- The list of primary keys of the stored rows. -/
def pks (db : Db) : List Nat := db.map Page.pk

/-- ORM lookup of a row by primary key (`Page.objects.get(pk=k)`). -/
def getPage (db : Db) (k : Nat) : Option Page :=
  db.find? (fun r => r.pk == k)

/-- The parent pointer of the stored row with primary key `k`. -/
def parentOf (db : Db) (k : Nat) : Option Nat :=
  (getPage db k).bind Page.parentId

/-- Django's `Model.save` at the database level: UPDATE the row with the same
primary key when one exists, INSERT at the end otherwise. -/
def dbSave (db : Db) (p : Page) : Db :=
  if db.any (fun r => r.pk == p.pk) then
    db.map (fun r => if r.pk == p.pk then p else r)
  else
    db ++ [p]

theorem find?_map_pk_ne (db : Db) (p : Page) (k : Nat) (hk : k ≠ p.pk) :
    List.find? (fun r => r.pk == k) (db.map (fun r => if r.pk == p.pk then p else r)) =
      List.find? (fun r => r.pk == k) db := by
  induction db with
  | nil => rfl
  | cons r rest ih =>
    rw [List.map_cons]
    by_cases h : r.pk = p.pk
    · rw [if_pos (show (r.pk == p.pk) = true by simp [h])]
      rw [List.find?_cons_of_neg _ (by simp [Ne.symm hk]),
        List.find?_cons_of_neg _ (by simp [h, Ne.symm hk]), ih]
    · rw [if_neg (show ¬ (r.pk == p.pk) = true by simp [h])]
      by_cases h3 : r.pk = k
      · rw [List.find?_cons_of_pos _ (by simp [h3]), List.find?_cons_of_pos _ (by simp [h3])]
      · rw [List.find?_cons_of_neg _ (by simp [h3]), List.find?_cons_of_neg _ (by simp [h3]),
          ih]

theorem find?_map_pk_eq (db : Db) (p : Page)
    (hmem : db.any (fun r => r.pk == p.pk) = true) :
    List.find? (fun r => r.pk == p.pk) (db.map (fun r => if r.pk == p.pk then p else r)) =
      some p := by
  induction db with
  | nil => simp at hmem
  | cons r rest ih =>
    rw [List.map_cons]
    by_cases h : r.pk = p.pk
    · rw [if_pos (show (r.pk == p.pk) = true by simp [h]), List.find?_cons_of_pos _ (by simp)]
    · rw [if_neg (show ¬ (r.pk == p.pk) = true by simp [h])]
      have h4 : (r.pk == p.pk) = false := by simp [h]
      simp only [List.any_cons, h4, Bool.false_or] at hmem
      rw [List.find?_cons_of_neg _ (by simp [h]), ih hmem]

/-- Characterisation of a save: lookup in the saved database returns the saved
row at its key and is unchanged elsewhere. -/
theorem getPage_dbSave (db : Db) (p : Page) (k : Nat) :
    getPage (dbSave db p) k = if k = p.pk then some p else getPage db k := by
  unfold dbSave getPage
  by_cases hmem : db.any (fun r => r.pk == p.pk) = true
  · rw [if_pos hmem]
    by_cases hk : k = p.pk
    · rw [if_pos hk, hk]
      exact find?_map_pk_eq db p hmem
    · rw [if_neg hk]
      exact find?_map_pk_ne db p k hk
  · rw [if_neg hmem, List.find?_append]
    by_cases hk : k = p.pk
    · subst hk
      have hnone : List.find? (fun r => r.pk == p.pk) db = none := by
        rw [List.find?_eq_none]
        intro r hr
        simp only [List.any_eq_true, not_exists] at hmem
        intro hbeq
        exact hmem r ⟨hr, hbeq⟩
      rw [hnone]
      simp
    · rw [if_neg hk]
      have hsing : List.find? (fun r => r.pk == k) [p] = none := by
        rw [List.find?_cons_of_neg _ (by simp [Ne.symm hk])]
        rfl
      cases hdb : List.find? (fun r => r.pk == k) db with
      | none => rw [hsing]; rfl
      | some r => rfl

theorem pks_dbSave_present (db : Db) (p : Page)
    (hmem : db.any (fun r => r.pk == p.pk) = true) :
    pks (dbSave db p) = pks db := by
  unfold dbSave pks
  rw [if_pos hmem, List.map_map]
  apply List.map_congr_left
  intro r _
  by_cases h : r.pk = p.pk
  · simp [h]
  · simp [h]

theorem pks_dbSave_absent (db : Db) (p : Page)
    (hmem : ¬ db.any (fun r => r.pk == p.pk) = true) :
    pks (dbSave db p) = pks db ++ [p.pk] := by
  unfold dbSave pks
  rw [if_neg hmem]
  simp

theorem mem_pks_iff (db : Db) (k : Nat) : k ∈ pks db ↔ ∃ r ∈ db, r.pk = k := by
  unfold pks
  simp [eq_comm]

theorem any_pk_iff (db : Db) (k : Nat) :
    db.any (fun r => r.pk == k) = true ↔ k ∈ pks db := by
  rw [mem_pks_iff]
  simp

/-- With distinct primary keys, looking up a member row by its key returns the
row itself. -/
theorem getPage_self (db : Db) (p : Page) (hnd : (pks db).Nodup) (hp : p ∈ db) :
    getPage db p.pk = some p := by
  unfold getPage
  cases hfind : db.find? (fun r => r.pk == p.pk) with
  | none =>
    rw [List.find?_eq_none] at hfind
    exact absurd (by simp : (p.pk == p.pk) = true) (hfind p hp)
  | some r =>
    have hr : r ∈ db := List.mem_of_find?_eq_some hfind
    have hrpk := List.find?_some hfind
    have : r = p := List.inj_on_of_nodup_map hnd hr hp (by simpa using hrpk)
    rw [this]

theorem getPage_mem (db : Db) (k : Nat) (r : Page) (h : getPage db k = some r) :
    r ∈ db ∧ r.pk = k := by
  unfold getPage at h
  have h1 := List.mem_of_find?_eq_some h
  have h2 := List.find?_some h
  exact ⟨h1, by simpa using h2⟩

/-- The chain of primary keys reached by repeatedly following the pointer
function `f` from the optional key `pid`, cut off by an explicit fuel.  This
models the unbounded parent-chain walks of the source; the theorems supply
enough fuel for the cut-off never to fire. -/
def chainF (f : Nat → Option Nat) : Nat → Option Nat → List Nat
  | 0, _ => []
  | _ + 1, none => []
  | fuel + 1, some k => k :: chainF f fuel (f k)

/-- Referential integrity at the key level: every pointer lands in `S`. -/
def ClosedF (f : Nat → Option Nat) (S : List Nat) : Prop :=
  ∀ k j, f k = some j → j ∈ S

/-- Acyclicity at the key level: no key of `S` reaches itself by following
pointers, whatever the fuel. -/
def AcyclicF (f : Nat → Option Nat) (S : List Nat) : Prop :=
  ∀ k ∈ S, ∀ g, k ∉ chainF f g (f k)

theorem chainF_length_le (f : Nat → Option Nat) (fuel : Nat) (pid : Option Nat) :
    (chainF f fuel pid).length ≤ fuel := by
  induction fuel generalizing pid with
  | zero => simp [chainF]
  | succ n ih =>
    cases pid with
    | none => simp [chainF]
    | some k =>
      simp only [chainF, List.length_cons]
      exact Nat.succ_le_succ (ih (f k))

theorem chainF_take (f : Nat → Option Nat) {m n : Nat} (h : m ≤ n) (pid : Option Nat) :
    chainF f m pid = (chainF f n pid).take m := by
  induction m generalizing n pid with
  | zero => simp [chainF]
  | succ m ih =>
    obtain ⟨n', rfl⟩ : ∃ n', n = n' + 1 := ⟨n - 1, by omega⟩
    cases pid with
    | none => simp [chainF]
    | some k =>
      simp only [chainF, List.take_succ_cons]
      rw [ih (by omega : m ≤ n') (f k)]

theorem mem_chainF_mono (f : Nat → Option Nat) {m n : Nat} (h : m ≤ n) {pid : Option Nat}
    {x : Nat} (hx : x ∈ chainF f m pid) : x ∈ chainF f n pid := by
  rw [chainF_take f h pid] at hx
  exact (List.take_sublist m (chainF f n pid)).mem hx

theorem chainF_stable (f : Nat → Option Nat) {n : Nat} {pid : Option Nat}
    (h : (chainF f n pid).length < n) {g : Nat} (hg : n ≤ g) :
    chainF f g pid = chainF f n pid := by
  induction n generalizing pid g with
  | zero => omega
  | succ n ih =>
    cases pid with
    | none =>
      cases g with
      | zero => rfl
      | succ g => rfl
    | some k =>
      obtain ⟨g', rfl⟩ : ∃ g', g = g' + 1 := ⟨g - 1, by omega⟩
      simp only [chainF, List.length_cons] at h ⊢
      rw [ih (by omega : (chainF f n (f k)).length < n) (by omega : n ≤ g')]

theorem chainF_subset {f : Nat → Option Nat} {S : List Nat} (hcl : ClosedF f S)
    (fuel : Nat) {pid : Option Nat} (hpid : ∀ j, pid = some j → j ∈ S) :
    ∀ x ∈ chainF f fuel pid, x ∈ S := by
  induction fuel generalizing pid with
  | zero => simp [chainF]
  | succ n ih =>
    cases pid with
    | none => simp [chainF]
    | some k =>
      intro x hx
      rcases List.mem_cons.mp hx with rfl | hx'
      · exact hpid x rfl
      · exact ih (fun j hj => hcl k j hj) x hx'

theorem chainF_decomp (f : Nat → Option Nat) :
    ∀ (fuel : Nat) (pid : Option Nat) (l1 : List Nat) (x : Nat) (l2 : List Nat),
      chainF f fuel pid = l1 ++ x :: l2 → l2 = chainF f (fuel - l1.length - 1) (f x) := by
  intro fuel
  induction fuel with
  | zero => intro pid l1 x l2 h; simp [chainF] at h
  | succ n ih =>
    intro pid l1 x l2 h
    cases pid with
    | none => simp [chainF] at h
    | some k =>
      simp only [chainF] at h
      cases l1 with
      | nil =>
        simp only [List.nil_append, List.cons.injEq] at h
        obtain ⟨rfl, h2⟩ := h
        simpa using h2.symm
      | cons a l1' =>
        simp only [List.cons_append, List.cons.injEq] at h
        obtain ⟨h1, h2⟩ := h
        subst h1
        have := ih (f k) l1' x l2 h2
        simpa [Nat.succ_sub_succ] using this

theorem not_nodup_split {α : Type} [DecidableEq α] :
    ∀ l : List α, ¬ l.Nodup → ∃ (l1 : List α) (x : α) (l2 : List α),
      l = l1 ++ x :: l2 ∧ x ∈ l2 := by
  intro l
  induction l with
  | nil => intro h; exact absurd List.nodup_nil h
  | cons a t ih =>
    intro h
    by_cases ha : a ∈ t
    · exact ⟨[], a, t, rfl, ha⟩
    · have ht : ¬ t.Nodup := by
        intro hnd
        exact h (List.nodup_cons.mpr ⟨ha, hnd⟩)
      obtain ⟨t1, x, t2, heq, hx⟩ := ih ht
      exact ⟨a :: t1, x, t2, by rw [heq, List.cons_append], hx⟩

theorem length_le_of_nodup_subset {l S : List Nat} (hnd : l.Nodup)
    (hsub : ∀ x ∈ l, x ∈ S) : l.length ≤ S.length :=
  (hnd.subperm hsub).length_le

/-- The pigeonhole bridge: if no key of `S` reaches itself within
`S.length + 1` steps, none reaches itself at any fuel. -/
theorem acyclicF_of_bounded {f : Nat → Option Nat} {S : List Nat} (hcl : ClosedF f S)
    (hb : ∀ k ∈ S, k ∉ chainF f (S.length + 1) (f k)) : AcyclicF f S := by
  intro k hk g hmem
  set N := S.length with hN
  by_cases hlen : (chainF f (N + 1) (f k)).length < N + 1
  · by_cases hg : g ≤ N + 1
    · exact hb k hk (mem_chainF_mono f hg hmem)
    · rw [chainF_stable f hlen (by omega : N + 1 ≤ g)] at hmem
      exact hb k hk hmem
  · have hsub : ∀ x ∈ chainF f (N + 1) (f k), x ∈ S :=
      chainF_subset hcl (N + 1) (fun j hj => hcl k j hj)
    have hnnd : ¬ (chainF f (N + 1) (f k)).Nodup := by
      intro hnd
      exact hlen (by
        have := length_le_of_nodup_subset hnd hsub
        omega)
    obtain ⟨l1, x, l2, heq, hx⟩ := not_nodup_split _ hnnd
    have hxS : x ∈ S := hsub x (by rw [heq]; exact List.mem_append_right l1 (List.mem_cons_self x l2))
    have hl2 : l2 = chainF f (N + 1 - l1.length - 1) (f x) := chainF_decomp f (N + 1) (f k) l1 x l2 heq
    rw [hl2] at hx
    exact hb x hxS (mem_chainF_mono f (by omega : N + 1 - l1.length - 1 ≤ N + 1) hx)

theorem reach_trans {f : Nat → Option Nat} {x y : Nat} :
    ∀ {g : Nat} {pid : Option Nat}, x ∈ chainF f g pid → ∀ {h : Nat},
      y ∈ chainF f h (f x) → ∃ g2, y ∈ chainF f g2 pid := by
  intro g
  induction g with
  | zero => intro pid hx; simp [chainF] at hx
  | succ n ih =>
    intro pid hx h hy
    cases pid with
    | none => simp [chainF] at hx
    | some k =>
      rcases List.mem_cons.mp hx with rfl | hx'
      · exact ⟨h + 1, by simpa [chainF] using List.mem_cons_of_mem x hy⟩
      · obtain ⟨g2, hm⟩ := ih hx' hy
        exact ⟨g2 + 1, by simpa [chainF] using List.mem_cons_of_mem k hm⟩

theorem chainF_nodup {f : Nat → Option Nat} {S : List Nat} (hac : AcyclicF f S)
    (hcl : ClosedF f S) (fuel : Nat) {pid : Option Nat}
    (hpid : ∀ j, pid = some j → j ∈ S) : (chainF f fuel pid).Nodup := by
  induction fuel generalizing pid with
  | zero => simp [chainF]
  | succ n ih =>
    cases pid with
    | none => simp [chainF]
    | some k =>
      simp only [chainF]
      refine List.nodup_cons.mpr ⟨?_, ih (fun j hj => hcl k j hj)⟩
      intro hmem
      exact hac k (hpid k rfl) n hmem

/-- Under acyclicity and closure, membership in a chain at any fuel implies
membership at fuel `S.length + 1`. -/
theorem mem_chainF_bound {f : Nat → Option Nat} {S : List Nat} (hac : AcyclicF f S)
    (hcl : ClosedF f S) {pid : Option Nat} (hpid : ∀ j, pid = some j → j ∈ S)
    {g : Nat} {x : Nat} (hx : x ∈ chainF f g pid) : x ∈ chainF f (S.length + 1) pid := by
  by_cases hg : g ≤ S.length + 1
  · exact mem_chainF_mono f hg hx
  · have hlen : (chainF f (S.length + 1) pid).length < S.length + 1 := by
      have h1 := chainF_nodup hac hcl (S.length + 1) hpid
      have h2 := chainF_subset hcl (S.length + 1) hpid
      have := length_le_of_nodup_subset h1 h2
      omega
    rw [← chainF_stable f hlen (by omega : S.length + 1 ≤ g)]
    exact hx

theorem chainF_agree_of_not_mem {f f2 : Nat → Option Nat} {p : Nat}
    (hagree : ∀ k, k ≠ p → f2 k = f k) :
    ∀ (g : Nat) (pid : Option Nat), p ∉ chainF f2 g pid →
      chainF f2 g pid = chainF f g pid := by
  intro g
  induction g with
  | zero => intro pid _; rfl
  | succ n ih =>
    intro pid hnm
    cases pid with
    | none => rfl
    | some k =>
      simp only [chainF] at hnm ⊢
      have hk : k ≠ p := fun h => hnm (h ▸ List.mem_cons_self k _)
      have htail : p ∉ chainF f2 n (f2 k) := fun h => hnm (List.mem_cons_of_mem k h)
      rw [hagree k hk] at htail ⊢
      rw [ih (f k) htail]

theorem mem_chainF_agree_target {f f2 : Nat → Option Nat} {p : Nat}
    (hagree : ∀ k, k ≠ p → f2 k = f k) :
    ∀ (g : Nat) (pid : Option Nat), p ∈ chainF f2 g pid →
      ∃ g2, p ∈ chainF f g2 pid := by
  intro g
  induction g with
  | zero => intro pid h; simp [chainF] at h
  | succ n ih =>
    intro pid h
    cases pid with
    | none => simp [chainF] at h
    | some k =>
      by_cases hk : k = p
      · exact ⟨1, by simp [chainF, hk]⟩
      · rcases List.mem_cons.mp h with h1 | h2
        · exact absurd h1.symm hk
        · rw [hagree k hk] at h2
          obtain ⟨g2, hm⟩ := ih (f k) h2
          exact ⟨g2 + 1, by simpa [chainF] using List.mem_cons_of_mem k hm⟩

theorem mem_chainF_redirect {f f2 : Nat → Option Nat} {p : Nat} {v : Option Nat}
    (hagree : ∀ k, k ≠ p → f2 k = f k) (hp : f2 p = v) :
    ∀ (g : Nat) (pid : Option Nat) (y : Nat), y ∈ chainF f2 g pid →
      (∃ g2, y ∈ chainF f g2 pid) ∨ y = p ∨ (∃ g2, y ∈ chainF f g2 v) := by
  intro g
  induction g with
  | zero => intro pid y h; simp [chainF] at h
  | succ n ih =>
    intro pid y h
    cases pid with
    | none => simp [chainF] at h
    | some k =>
      rcases List.mem_cons.mp h with rfl | h2
      · exact Or.inl ⟨1, by simp [chainF]⟩
      · by_cases hk : k = p
        · subst hk
          rw [hp] at h2
          rcases ih v y h2 with h3 | h3 | h3
          · exact Or.inr (Or.inr h3)
          · exact Or.inr (Or.inl h3)
          · exact Or.inr (Or.inr h3)
        · rw [hagree k hk] at h2
          rcases ih (f k) y h2 with ⟨g2, hm⟩ | h3 | h3
          · exact Or.inl ⟨g2 + 1, by simpa [chainF] using List.mem_cons_of_mem k hm⟩
          · exact Or.inr (Or.inl h3)
          · exact Or.inr (Or.inr h3)

/-- Redirecting the pointer of the single key `p` to a target `v` from which
`p` is unreachable preserves acyclicity. -/
theorem acyclicF_update {f f2 : Nat → Option Nat} {S S2 : List Nat} {p : Nat}
    {v : Option Nat} (hac : AcyclicF f S) (hnr : ∀ g, p ∉ chainF f g v)
    (hagree : ∀ k, k ≠ p → f2 k = f k) (hp : f2 p = v)
    (hS2 : ∀ k, k ∈ S2 → k ∈ S ∨ k = p) : AcyclicF f2 S2 := by
  intro k hk g hmem
  by_cases hkp : k = p
  · subst hkp
    rw [hp] at hmem
    obtain ⟨g2, hm2⟩ := mem_chainF_agree_target hagree g v hmem
    exact hnr g2 hm2
  · have hkS : k ∈ S := (hS2 k hk).resolve_right hkp
    rw [hagree k hkp] at hmem
    by_cases hpmem : p ∈ chainF f2 g (f k)
    · obtain ⟨gp, hp2⟩ := mem_chainF_agree_target hagree g (f k) hpmem
      rcases mem_chainF_redirect hagree hp g (f k) k hmem with ⟨g2, hm⟩ | h2 | ⟨g3, hm3⟩
      · exact hac k hkS g2 hm
      · exact hkp h2
      · obtain ⟨g4, hm4⟩ := reach_trans hm3 hp2
        exact hnr g4 hm4
    · rw [chainF_agree_of_not_mem hagree g (f k) hpmem] at hmem
      exact hac k hkS g hmem

theorem getPage_of_mem_pks (db : Db) (k : Nat) (h : k ∈ pks db) :
    ∃ r, getPage db k = some r := by
  cases hfind : getPage db k with
  | none =>
    unfold getPage at hfind
    rw [List.find?_eq_none] at hfind
    obtain ⟨r, hr, hpk⟩ := (mem_pks_iff db k).mp h
    exact absurd (by simp [hpk] : (r.pk == k) = true) (hfind r hr)
  | some r => exact ⟨r, rfl⟩

/-- Decidable referential integrity of the page table: every set parent
foreign key points at a stored row. -/
def ClosedB (db : Db) : Bool :=
  db.all (fun r =>
    match r.parentId with
    | none => true
    | some j => db.any (fun s => s.pk == j))

/-- Decidable acyclicity of the stored parent pointers, checked to the depth
that suffices for a table with distinct keys. -/
def acyclicB (db : Db) : Bool :=
  (pks db).all (fun k =>
    !((chainF (parentOf db) (db.length + 1) (parentOf db k)).contains k))

theorem closedF_of_closedB (db : Db) (h : ClosedB db = true) :
    ClosedF (parentOf db) (pks db) := by
  intro k j hkj
  unfold parentOf at hkj
  cases hget : getPage db k with
  | none => rw [hget] at hkj; simp at hkj
  | some r =>
    rw [hget] at hkj
    have hkj2 : r.parentId = some j := by simpa using hkj
    obtain ⟨hrmem, _⟩ := getPage_mem db k r hget
    unfold ClosedB at h
    rw [List.all_eq_true] at h
    have := h r hrmem
    rw [hkj2] at this
    rw [← any_pk_iff]
    exact this

theorem acyclicF_of_acyclicB (db : Db) (hcl : ClosedB db = true)
    (hac : acyclicB db = true) : AcyclicF (parentOf db) (pks db) := by
  apply acyclicF_of_bounded (closedF_of_closedB db hcl)
  intro k hk hmem
  unfold acyclicB at hac
  rw [List.all_eq_true] at hac
  have hthis := hac k hk
  have hlen : (pks db).length = db.length := by simp [pks]
  rw [hlen] at hmem
  have hcont : (chainF (parentOf db) (db.length + 1) (parentOf db k)).contains k = true := by
    simp only [List.contains_eq_any_beq, List.any_eq_true]
    exact ⟨k, hmem, by simp⟩
  rw [hcont] at hthis
  simp at hthis

/-- Python truthiness of the nullable integer `parent_id` field: both
`None` and `0` are falsy. -/
def pyTruthyId : Option Nat → Bool
  | none => false
  | some k => k != 0

/-- The object-level parent chain starting from the foreign key `pid`: the
rows reached by following `parent`, then `parent.parent`, and so on, nearest
ancestor first.  A dangling foreign key (which would raise `DoesNotExist` in
the source) ends the chain. -/
def parentChain (db : Db) : Nat → Option Nat → List Page
  | 0, _ => []
  | _ + 1, none => []
  | fuel + 1, some k =>
    match getPage db k with
    | none => []
    | some r => r :: parentChain db fuel r.parentId

/-- The while loop of `Page.save` that walks up the parent chain inserting
each parent's title at the front of the accumulated list. -/
def titlesAcc (db : Db) : Nat → Option Nat → List String → List String
  | 0, _, acc => acc
  | _ + 1, none, acc => acc
  | fuel + 1, some k, acc =>
    match getPage db k with
    | none => acc
    | some r => titlesAcc db fuel r.parentId (r.title :: acc)

/-- Embedding of `Page.save` (models.py lines 74-87): on a first save
(`self.id is None`) set `content_model` to the lowercased model name
(`objectName` stands for `self._meta.object_name`), build `titles` by
joining the titles up the parent chain with " / ", then persist through
`super().save()`, which updates or inserts the row by primary key and leaves
the object with an id. -/
def Page.save (objectName : String) (db : Db) (p : Page) : Page × Db :=
  let p1 := if p.hasId then p else { p with contentModel := objectName.toLower }
  let p2 := { p1 with
    titles := String.intercalate " / " (titlesAcc db db.length p1.parentId [p1.title]),
    hasId := true }
  (p2, dbSave db p2)

/-- Whether the character list `pre` begins the second character list:
Python's startswith, at character level. -/
def beginsWith : List Char → List Char → Bool
  | [], _ => true
  | _ :: _, [] => false
  | a :: as, b :: bs => a == b && beginsWith as bs

/-- Python's str.startswith: character-level prefix test. -/
def strStarts (s pre : String) : Bool := beginsWith pre.toList s.toList

/-- Python's s[n:]: drop the first `n` characters. -/
def pyDrop (s : String) (n : Nat) : String := String.mk (s.toList.drop n)

/-- The queryset `Page.objects.filter(slug__startswith=self.slug)` of
`Page.set_slug`: the rows whose slug starts with `s`, snapshotted in table
order when the loop begins. -/
def slugVictims (db : Db) (s : String) : List Page :=
  db.filter (fun r => strStarts r.slug s)

/-- One iteration of the loop in `Page.set_slug`: skip a page whose slug is
overridden by an explicit urlpattern, otherwise replace the prefix `s` of its
slug by `n` and save the page. -/
def slugStep (ov : String → Bool) (objectName : String) (s n : String) (d : Db)
    (r : Page) : Db :=
  if ov r.slug then d
  else (Page.save objectName d { r with slug := n ++ pyDrop r.slug s.length }).2

/-- Embedding of `Page.set_slug` (models.py lines 158-167): rewrite the slug
of every stored page whose slug starts with this page's slug and is not
overridden, saving each, then assign the new slug to the in-memory object.
`ov` models `Page.overridden` (lines 197-205): whether the page URL built
from a slug resolves to a view other than the generic page view; that is a
function of the slug and the fixed URL configuration only, so it enters the
model as an oracle on slugs. -/
def Page.set_slug (ov : String → Bool) (objectName : String) (db : Db) (p : Page)
    (new_slug : String) : Page × Db :=
  ({ p with slug := new_slug },
    (slugVictims db p.slug).foldl (slugStep ov objectName p.slug new_slug) db)

/-- The cycle-detection loop of `Page.set_parent` (lines 178-184): walk up
from the candidate parent object and report whether it or any of its
ancestors has this page's primary key.  Fuel exhaustion, which can only
happen on a table already containing a cycle that the source loop would
never leave, reports no cycle. -/
def cycleCheck (db : Db) (selfPk : Nat) : Nat → Option Page → Bool
  | _, none => false
  | 0, some _ => false
  | fuel + 1, some q =>
    q.pk == selfPk || cycleCheck db selfPk fuel (q.parentId.bind (getPage db))

/-- Python's str.replace(old, new, 1) on character lists: replace the
leftmost occurrence of `old`, if any. -/
def replaceFirstAux (old new : List Char) : List Char → List Char
  | [] => if old.isEmpty then new else []
  | c :: cs =>
    if beginsWith old (c :: cs) then new ++ (c :: cs).drop old.length
    else c :: replaceFirstAux old new cs

/-- Python's str.replace(old, new, 1). -/
def replaceFirst (s old new : String) : String :=
  String.mk (replaceFirstAux old.toList new.toList s.toList)

/-- Python's str.strip("/"): remove leading and trailing slash characters. -/
def stripSlashes (s : String) : String :=
  String.mk (((s.toList.dropWhile (fun c => c == '/')).reverse.dropWhile
    (fun c => c == '/')).reverse)

/-- Embedding of `Page.set_parent` (models.py lines 169-195): record the
current slug and the slugs of the old and new parents, walk up from the
candidate parent raising `AttributeError` (the error value) if it or one of
its ancestors has this page's primary key, otherwise assign the new parent,
save, and when the page had a slug rewrite it (and its subtree, through
`set_slug`) to match the new parent's slug.  The error value carries the
state at the raise, which the source leaves untouched. -/
def Page.set_parent (ov : String → Bool) (objectName : String) (db : Db) (p : Page)
    (new_parent : Option Page) : Except (Page × Db) (Page × Db) :=
  let self_slug := p.slug
  let old_parent_slug :=
    match p.parentId.bind (getPage db) with
    | some par => par.slug
    | none => ""
  let new_parent_slug :=
    match new_parent with
    | some q => q.slug
    | none => ""
  if cycleCheck db p.pk (db.length + 1) new_parent then
    Except.error (p, db)
  else
    let saved := Page.save objectName db { p with parentId := new_parent.map Page.pk }
    let p2 := saved.1
    let db1 := saved.2
    if self_slug ≠ "" then
      if old_parent_slug = "" then
        Except.ok (Page.set_slug ov objectName db1 p2 (new_parent_slug ++ "/" ++ p2.slug))
      else if strStarts p2.slug old_parent_slug then
        Except.ok (Page.set_slug ov objectName db1 p2
          (stripSlashes (replaceFirst p2.slug old_parent_slug new_parent_slug)))
      else
        Except.ok (p2, db1)
    else
      Except.ok (p2, db1)

/-- Embedding of `Page.get_slug` (models.py lines 149-156): slugify the
title, prepending the parent's slug and a slash when there is a parent.
`slugify` is the framework utility from mezzanine.utils.urls, a function of
the title alone, passed as an oracle.  A set parent foreign key whose row is
missing raises in the source; the result is `none` there. -/
def Page.get_slug (slugify : String → String) (db : Db) (p : Page) : Option String :=
  let slug := slugify p.title
  match p.parentId with
  | none => some slug
  | some k =>
    match getPage db k with
    | none => none
    | some par => some (par.slug ++ "/" ++ slug)

/-- Modelled from the spec: `Page.objects.with_ascendants_for_slug`
(mezzanine/pages/managers.py is not part of this source tree).  The spec
describes it as the single-query retrieval behind ascendant-chain caching:
it looks the slug up and yields the parent chain when the chain is
recoverable from the slug (every ancestor slug a prefix of it, the
uncustomised layout), and yields no ascendants otherwise. -/
def with_ascendants_for_slug (db : Db) (slug : String) : List Page :=
  match db.find? (fun r => r.slug == slug) with
  | none => []
  | some r =>
    let chain := parentChain db db.length r.parentId
    if chain.all (fun a => strStarts slug a.slug) then chain else []

/-- Embedding of `Page.get_ascendants` (models.py lines 102-132): bail out
with an empty list when `parent_id` is falsy; otherwise populate the
`_ascendants` cache, through `with_ascendants_for_slug` when the attribute
is absent and the page has a slug, and fall back to walking `parent`
pointers recursively when the cached list is empty.  The cache attribute is
threaded explicitly: `none` models it being absent from the object. -/
def Page.get_ascendants (db : Db) (p : Page) (cache : Option (List Page)) :
    List Page × Option (List Page) :=
  if pyTruthyId p.parentId = false then ([], cache)
  else
    let c0 :=
      match cache with
      | some c => c
      | none => if p.slug ≠ "" then with_ascendants_for_slug db p.slug else []
    let c1 := if c0.isEmpty then parentChain db db.length p.parentId else c0
    (c1, some c1)

/-- A user row: primary key, email, and the names of the groups the user
belongs to. -/
structure User where
  uid : Nat
  email : String
  groups : List String
deriving Repr, DecidableEq

/-- `Moderated.PENDING` (models.py line 270). -/
def Moderated.PENDING : Nat := 1

/-- `Moderated.APPROVED` (models.py line 271). -/
def Moderated.APPROVED : Nat := 2

/-- `Moderated.REJECTED` (models.py line 272). -/
def Moderated.REJECTED : Nat := 3

/-- Modelled from the spec: the draft content status constant imported from
mezzanine.core.models, which is not part of this source tree; its concrete
value is immaterial, only equality with the `status` field matters. -/
def CONTENT_STATUS_DRAFT : Nat := 1

/-- The outgoing message and returned queryset of `send_pending_email`. -/
structure PendingEmail where
  subject : String
  body : String
  recipients : List String
  publishers : List User
deriving Repr, DecidableEq

/-- Embedding of `Moderated.send_pending_email` (models.py lines 296-315):
the recipients are the users in the "Publisher" group, narrowed to the
owning group when that is set and the narrowed set is non-empty; the body is
the item's admin change URL on the current site's domain; the mail goes to
the distinct emails of those users and the publishers are returned.
`verboseName`, `domain` and `adminUrl` stand for the framework-provided
verbose name of the model, current site domain, and admin URL of the item. -/
def send_pending_email (users : List User) (owningGroup : Option String)
    (verboseName domain adminUrl : String) : PendingEmail :=
  let subject := "Draft " ++ verboseName.toLower ++ " needs moderation"
  let body := "http://" ++ domain ++ adminUrl
  let isPublisher := fun (u : User) => u.groups.contains "Publisher"
  let initial :=
    match owningGroup with
    | some g => users.filter (fun u => u.groups.contains g && isPublisher u)
    | none => []
  let publishers := if initial.isEmpty then users.filter isPublisher else initial
  { subject := subject, body := body,
    recipients := (publishers.map User.email).dedup, publishers := publishers }

/-- Embedding of `Moderated.current_status` (models.py lines 317-328).
`status`, `approval` and `publishDate` are the model fields, `nowT` the
framework clock `now()`, and `pdate` the localized publish date interpolated
into the labels. -/
def current_status (status : Nat) (approval : Option Nat) (publishDate nowT : Int)
    (pdate : String) : String × String :=
  if status == CONTENT_STATUS_DRAFT then
    if approval == some Moderated.PENDING then ("pending", "Pending approval")
    else if approval == some Moderated.REJECTED then ("rejected", "Rejected")
    else ("draft", "Draft")
  else if publishDate < nowT then ("published", "Approved, published on " ++ pdate)
  else ("approved", "Approved, to be published on " ++ pdate)

theorem save_fst_fields (o : String) (d : Db) (q : Page) :
    (Page.save o d q).1.pk = q.pk ∧ (Page.save o d q).1.parentId = q.parentId ∧
    (Page.save o d q).1.slug = q.slug ∧ (Page.save o d q).1.title = q.title := by
  unfold Page.save
  by_cases h : q.hasId <;> simp [h]

theorem save_snd_eq (o : String) (d : Db) (q : Page) :
    (Page.save o d q).2 = dbSave d (Page.save o d q).1 := by
  unfold Page.save
  by_cases h : q.hasId <;> simp [h]

theorem titlesAcc_eq (db : Db) :
    ∀ (fuel : Nat) (pid : Option Nat) (acc : List String),
      titlesAcc db fuel pid acc = ((parentChain db fuel pid).map Page.title).reverse ++ acc := by
  intro fuel
  induction fuel with
  | zero => intro pid acc; simp [titlesAcc, parentChain]
  | succ n ih =>
    intro pid acc
    cases pid with
    | none => simp [titlesAcc, parentChain]
    | some k =>
      cases hget : getPage db k with
      | none => simp [titlesAcc, parentChain, hget]
      | some r =>
        simp only [titlesAcc, parentChain, hget]
        rw [ih r.parentId (r.title :: acc)]
        simp

/-- C6: `Page.save` sets `titles` to the titles of the pages along the parent
chain, from the root ancestor down to the page itself, joined by " / "; and
only on a first save (id unset) does it set `content_model` to the lowercased
model name, leaving it alone otherwise. -/
theorem C6_save_titles (objectName : String) (db : Db) (p : Page) :
    (Page.save objectName db p).1.titles =
      String.intercalate " / "
        (((parentChain db db.length p.parentId).map Page.title).reverse ++ [p.title]) ∧
    (p.hasId = false → (Page.save objectName db p).1.contentModel = objectName.toLower) ∧
    (p.hasId = true → (Page.save objectName db p).1.contentModel = p.contentModel) := by
  unfold Page.save
  by_cases h : p.hasId <;> simp [h, titlesAcc_eq]

/-- C4: `Page.get_slug` returns slugify(title) for a page without a parent,
and the parent's slug followed by "/" and slugify(title) for a page with a
(stored) parent. -/
theorem C4_get_slug (slugify : String → String) (db : Db) (p : Page) :
    (p.parentId = none → Page.get_slug slugify db p = some (slugify p.title)) ∧
    (∀ k par, p.parentId = some k → getPage db k = some par →
      Page.get_slug slugify db p = some (par.slug ++ "/" ++ slugify p.title)) := by
  constructor
  · intro h
    simp [Page.get_slug, h]
  · intro k par hk hpar
    simp [Page.get_slug, hk, hpar]

/-- C8: `Moderated.current_status` distinguishes pending, rejected and draft
for a draft item according to `approval`, and published versus approved (to
be published) for a non-draft item according to whether `publish_date` is
before the current time. -/
theorem C8_current_status (status : Nat) (approval : Option Nat)
    (publishDate nowT : Int) (pdate : String) :
    (status = CONTENT_STATUS_DRAFT →
      ((approval = some Moderated.PENDING →
        current_status status approval publishDate nowT pdate =
          ("pending", "Pending approval")) ∧
      (approval = some Moderated.REJECTED →
        current_status status approval publishDate nowT pdate =
          ("rejected", "Rejected")) ∧
      (approval ≠ some Moderated.PENDING → approval ≠ some Moderated.REJECTED →
        current_status status approval publishDate nowT pdate = ("draft", "Draft")))) ∧
    (status ≠ CONTENT_STATUS_DRAFT →
      ((publishDate < nowT →
        current_status status approval publishDate nowT pdate =
          ("published", "Approved, published on " ++ pdate)) ∧
      (¬ publishDate < nowT →
        current_status status approval publishDate nowT pdate =
          ("approved", "Approved, to be published on " ++ pdate)))) := by
  constructor
  · intro hd
    refine ⟨?_, ?_, ?_⟩
    · intro ha
      simp [current_status, hd, ha]
    · intro ha
      simp [current_status, hd, ha, Moderated.REJECTED, Moderated.PENDING]
    · intro ha hr
      simp [current_status, hd, ha, hr]
  · intro hd
    constructor
    · intro hp
      simp [current_status, hd, hp]
    · intro hp
      simp [current_status, hd, hp]

/-- The users in the "Publisher" group. -/
def publisherUsers (users : List User) : List User :=
  users.filter (fun u => u.groups.contains "Publisher")

/-- C7: `send_pending_email` computes the publishers as the "Publisher"-group
users, narrowed to the owning group when that is set and the narrowed set is
non-empty and to all publisher users otherwise; the mail body is the admin
URL on the current site's domain, its recipients are exactly the distinct
emails of those publishers, and the publishers are returned. -/
theorem C7_send_pending_email (users : List User) (owningGroup : Option String)
    (verboseName domain adminUrl : String) :
    ((send_pending_email users owningGroup verboseName domain adminUrl).publishers =
      match owningGroup with
      | some g =>
        if ((publisherUsers users).filter (fun u => u.groups.contains g)).isEmpty then
          publisherUsers users
        else
          (publisherUsers users).filter (fun u => u.groups.contains g)
      | none => publisherUsers users) ∧
    (send_pending_email users owningGroup verboseName domain adminUrl).recipients.Nodup ∧
    (∀ e, e ∈ (send_pending_email users owningGroup verboseName domain adminUrl).recipients ↔
      e ∈ (send_pending_email users owningGroup verboseName domain
        adminUrl).publishers.map User.email) ∧
    (send_pending_email users owningGroup verboseName domain adminUrl).body =
      "http://" ++ domain ++ adminUrl := by
  have hfilter : ∀ g : String,
      List.filter (fun u => u.groups.contains g)
          (List.filter (fun u => u.groups.contains "Publisher") users) =
        users.filter (fun u => u.groups.contains g && u.groups.contains "Publisher") := by
    intro g
    rw [List.filter_filter]
  refine ⟨?_, ?_, ?_, rfl⟩
  · cases owningGroup with
    | none => simp [send_pending_email, publisherUsers]
    | some g =>
      simp only [send_pending_email, publisherUsers]
      rw [hfilter g]
  · exact List.nodup_dedup _
  · intro e
    exact List.mem_dedup

theorem mem_pks_of_parentId (db : Db) (p : Page) (k : Nat) (hcl : ClosedB db = true)
    (hp : p ∈ db) (hk : p.parentId = some k) : k ∈ pks db := by
  unfold ClosedB at hcl
  rw [List.all_eq_true] at hcl
  have := hcl p hp
  rw [hk] at this
  exact (any_pk_iff db k).mp this

theorem parentChain_cons (db : Db) (fuel : Nat) (k : Nat) (r : Page)
    (hget : getPage db k = some r) :
    parentChain db (fuel + 1) (some k) = r :: parentChain db fuel r.parentId := by
  simp [parentChain, hget]

/-- C5: `Page.get_ascendants` returns the empty list for a page without a
parent, and for a page with a parent it returns the ascendant chain from the
immediate parent up to the root and caches it in `_ascendants`, so that a
second call on the same object returns the cached list. -/
theorem C5_get_ascendants (db : Db) (p : Page) (cache : Option (List Page))
    (hnd : (pks db).Nodup) (hsl : (db.map Page.slug).Nodup) (hcl : ClosedB db = true)
    (hz : 0 ∉ pks db) (hp : p ∈ db) :
    (p.parentId = none → Page.get_ascendants db p cache = ([], cache)) ∧
    (∀ k, p.parentId = some k →
      Page.get_ascendants db p none =
        (parentChain db db.length p.parentId, some (parentChain db db.length p.parentId)) ∧
      Page.get_ascendants db p (some (parentChain db db.length p.parentId)) =
        (parentChain db db.length p.parentId,
          some (parentChain db db.length p.parentId))) := by
  constructor
  · intro h
    simp [Page.get_ascendants, pyTruthyId, h]
  · intro k hk
    have hkmem : k ∈ pks db := mem_pks_of_parentId db p k hcl hp hk
    have hk0 : k ≠ 0 := fun h0 => hz (h0 ▸ hkmem)
    have htruthy : ¬ pyTruthyId p.parentId = false := by
      simp [pyTruthyId, hk, hk0]
    obtain ⟨r, hget⟩ := getPage_of_mem_pks db k hkmem
    obtain ⟨n, hlen⟩ : ∃ n, db.length = n + 1 := by
      cases db with
      | nil => simp [pks] at hkmem
      | cons a l => exact ⟨l.length, by simp⟩
    have hchain_ne : parentChain db db.length p.parentId ≠ [] := by
      rw [hk, hlen, parentChain_cons db n k r hget]
      simp
    have hwafs : with_ascendants_for_slug db p.slug = parentChain db db.length p.parentId ∨
        with_ascendants_for_slug db p.slug = [] := by
      unfold with_ascendants_for_slug
      cases hfind : db.find? (fun r2 => r2.slug == p.slug) with
      | none => exact Or.inr rfl
      | some r2 =>
        have hr2mem : r2 ∈ db := List.mem_of_find?_eq_some hfind
        have hr2slug := List.find?_some hfind
        have hr2p : r2 = p := List.inj_on_of_nodup_map hsl hr2mem hp (by simpa using hr2slug)
        subst hr2p
        dsimp only
        by_cases hpref :
            (parentChain db db.length r2.parentId).all (fun a => strStarts r2.slug a.slug)
        · rw [if_pos hpref]
          exact Or.inl rfl
        · rw [if_neg hpref]
          exact Or.inr rfl
    constructor
    · unfold Page.get_ascendants
      rw [if_neg htruthy]
      by_cases hslug : p.slug = ""
      · simp only [hslug]
        simp
      · simp only [ne_eq, hslug, not_false_eq_true, if_pos]
        rcases hwafs with hw | hw
        · rw [hw]
          have : (parentChain db db.length p.parentId).isEmpty = false := by
            simpa [List.isEmpty_iff] using hchain_ne
          simp [this]
        · rw [hw]
          simp
    · unfold Page.get_ascendants
      rw [if_neg htruthy]
      have : (parentChain db db.length p.parentId).isEmpty = false := by
        simpa [List.isEmpty_iff] using hchain_ne
      simp [this]

theorem getPage_slugStep (ov : String → Bool) (objectName s n : String) (d : Db) (r : Page)
    (k : Nat) :
    getPage (slugStep ov objectName s n d r) k =
      if ov r.slug then getPage d k
      else if k = r.pk then
        some ((Page.save objectName d { r with slug := n ++ pyDrop r.slug s.length }).1)
      else getPage d k := by
  unfold slugStep
  by_cases ho : ov r.slug
  · rw [if_pos ho, if_pos ho]
  · rw [if_neg ho, if_neg ho, save_snd_eq, getPage_dbSave]
    have hpk : (Page.save objectName d { r with slug := n ++ pyDrop r.slug s.length }).1.pk =
        r.pk := (save_fst_fields _ _ _).1
    rw [hpk]

theorem foldl_slugStep_untouched (ov : String → Bool) (objectName s n : String) :
    ∀ (victims : List Page) (d : Db) (k : Nat),
      (∀ r ∈ victims, r.pk = k → ov r.slug = true) →
      getPage (victims.foldl (slugStep ov objectName s n) d) k = getPage d k := by
  intro victims
  induction victims with
  | nil => intro d k _; rfl
  | cons v rest ih =>
    intro d k hv
    rw [List.foldl_cons]
    rw [ih _ k (fun r hr => hv r (List.mem_cons_of_mem v hr))]
    rw [getPage_slugStep]
    by_cases ho : ov v.slug
    · rw [if_pos ho]
    · rw [if_neg ho]
      have hk : ¬ k = v.pk := fun hkk => ho (hv v (List.mem_cons_self v rest) hkk.symm)
      rw [if_neg hk]

theorem foldl_slugStep_updated (ov : String → Bool) (objectName s n : String) :
    ∀ (victims : List Page) (d : Db), (victims.map Page.pk).Nodup →
      ∀ r ∈ victims, ov r.slug = false →
        ∃ r2, getPage (victims.foldl (slugStep ov objectName s n) d) r.pk = some r2 ∧
          r2.slug = n ++ pyDrop r.slug s.length ∧ r2.parentId = r.parentId ∧ r2.pk = r.pk := by
  intro victims
  induction victims with
  | nil => intro d _ r hr; simp at hr
  | cons v rest ih =>
    intro d hnd r hr ho
    rw [List.foldl_cons]
    rcases List.mem_cons.mp hr with rfl | hr2
    · refine ⟨(Page.save objectName d { r with slug := n ++ pyDrop r.slug s.length }).1,
        ?_, ?_, ?_, ?_⟩
      · have hnotin : r.pk ∉ rest.map Page.pk := (List.nodup_cons.mp hnd).1
        rw [foldl_slugStep_untouched ov objectName s n rest _ r.pk
          (fun r2 hr2 hpk => absurd (hpk ▸ List.mem_map_of_mem Page.pk hr2) hnotin)]
        rw [getPage_slugStep, if_neg (by simp [ho]), if_pos rfl]
      · exact (save_fst_fields _ _ _).2.2.1
      · exact (save_fst_fields _ _ _).2.1
      · exact (save_fst_fields _ _ _).1
    · exact ih _ (List.nodup_cons.mp hnd).2 r hr2 ho

/-- C3: `Page.set_slug` gives every stored page whose slug starts with this
page's slug and is not overridden the new slug followed by the remainder of
its old slug, saving each such page, and sets the in-memory slug to the new
slug. -/
theorem C3_set_slug (ov : String → Bool) (objectName : String) (db : Db) (p : Page)
    (n : String) (hnd : (pks db).Nodup) :
    (Page.set_slug ov objectName db p n).1 = { p with slug := n } ∧
    (∀ r ∈ db, strStarts r.slug p.slug = true → ov r.slug = false →
      ∃ r2, getPage (Page.set_slug ov objectName db p n).2 r.pk = some r2 ∧
        r2.slug = n ++ pyDrop r.slug p.slug.length) := by
  constructor
  · rfl
  · intro r hr hpre ho
    have hvic : r ∈ slugVictims db p.slug := by
      unfold slugVictims
      rw [List.mem_filter]
      exact ⟨hr, hpre⟩
    have hvnd : ((slugVictims db p.slug).map Page.pk).Nodup := by
      have hsub : List.Sublist (slugVictims db p.slug) db := List.filter_sublist _
      exact hnd.sublist (hsub.map Page.pk)
    obtain ⟨r2, hh, hs, _, _⟩ :=
      foldl_slugStep_updated ov objectName p.slug n _ db hvnd r hvic ho
    exact ⟨r2, hh, hs⟩

/-- C10: `Page.set_slug` leaves every other stored page untouched: a page
whose slug lacks the prefix, or whose slug is overridden, keeps its exact
row, so it is not saved. -/
theorem C10_set_slug_frame (ov : String → Bool) (objectName : String) (db : Db) (p : Page)
    (n : String) (hnd : (pks db).Nodup) :
    ∀ r ∈ db, (strStarts r.slug p.slug = false ∨ ov r.slug = true) →
      getPage (Page.set_slug ov objectName db p n).2 r.pk = some r := by
  intro r hr hcase
  have hself : getPage db r.pk = some r := getPage_self db r hnd hr
  have huntouched : ∀ v ∈ slugVictims db p.slug, v.pk = r.pk → ov v.slug = true := by
    intro v hv hpk
    have hvdb : v ∈ db := (List.mem_filter.mp hv).1
    have hvpre : strStarts v.slug p.slug = true := (List.mem_filter.mp hv).2
    have hvr : v = r := List.inj_on_of_nodup_map hnd hvdb hr hpk
    subst hvr
    rcases hcase with hc | hc
    · rw [hvpre] at hc
      cases hc
    · exact hc
  rw [show (Page.set_slug ov objectName db p n).2 =
    (slugVictims db p.slug).foldl (slugStep ov objectName p.slug n) db from rfl]
  rw [foldl_slugStep_untouched ov objectName p.slug n _ db r.pk huntouched]
  exact hself

theorem set_parent_error (ov : String → Bool) (objectName : String) (db : Db) (p : Page)
    (new_parent : Option Page) (s : Page × Db)
    (h : Page.set_parent ov objectName db p new_parent = Except.error s) : s = (p, db) := by
  unfold Page.set_parent at h
  by_cases hcc : cycleCheck db p.pk (db.length + 1) new_parent
  · rw [if_pos hcc] at h
    injection h with h2
    exact h2.symm
  · rw [if_neg hcc] at h
    dsimp only at h
    split at h
    · split at h
      · cases h
      · split at h
        · cases h
        · cases h
    · cases h

/-- C9: when `Page.set_parent` raises the cycle error, the page and the page
table are exactly as before the call: the parent and slug fields are
unchanged and no page is saved, because the cycle check runs before any
assignment or save. -/
theorem C9_set_parent_error_frame (ov : String → Bool) (objectName : String) (db : Db)
    (p : Page) (new_parent : Option Page) :
    ∀ s, Page.set_parent ov objectName db p new_parent = Except.error s → s = (p, db) :=
  fun s h => set_parent_error ov objectName db p new_parent s h

theorem cycleCheck_iff (db : Db) (c : Nat) (hcl : ClosedF (parentOf db) (pks db)) :
    ∀ (fuel : Nat) (q : Page), (∀ j, q.parentId = some j → j ∈ pks db) →
      (cycleCheck db c (fuel + 1) (some q) = true ↔
        q.pk = c ∨ c ∈ chainF (parentOf db) fuel q.parentId) := by
  intro fuel
  induction fuel with
  | zero =>
    intro q hq
    have h0 : cycleCheck db c 0 (q.parentId.bind (getPage db)) = false := by
      cases q.parentId.bind (getPage db) with
      | none => rfl
      | some r => rfl
    simp [cycleCheck, h0, chainF]
  | succ n ih =>
    intro q hq
    cases hqp : q.parentId with
    | none =>
      have hbind : q.parentId.bind (getPage db) = none := by rw [hqp]; rfl
      simp [cycleCheck, hbind, hqp, chainF]
    | some j =>
      have hj : j ∈ pks db := hq j hqp
      obtain ⟨r, hget⟩ := getPage_of_mem_pks db j hj
      have hbind : q.parentId.bind (getPage db) = some r := by
        rw [hqp]
        simpa using hget
      have hrpk : r.pk = j := (getPage_mem db j r hget).2
      have hfj : parentOf db j = r.parentId := by
        unfold parentOf
        rw [hget]
        rfl
      have hrq : ∀ j2, r.parentId = some j2 → j2 ∈ pks db := by
        intro j2 hj2
        exact hcl j j2 (by rw [hfj]; exact hj2)
      have hstep : cycleCheck db c (n + 1 + 1) (some q) =
          (q.pk == c || cycleCheck db c (n + 1) (some r)) := by
        simp [cycleCheck, hbind]
      rw [hstep]
      have hchain : chainF (parentOf db) (n + 1) (some j) =
          j :: chainF (parentOf db) n r.parentId := by
        simp [chainF, hfj]
      rw [hchain, Bool.or_eq_true, List.mem_cons, ih r hrq]
      simp only [beq_iff_eq]
      rw [hrpk]
      constructor
      · rintro (h1 | h2 | h3)
        · exact Or.inl h1
        · exact Or.inr (Or.inl h2.symm)
        · exact Or.inr (Or.inr h3)
      · rintro (h1 | h2 | h3)
        · exact Or.inl h1
        · exact Or.inr (Or.inl h2.symm)
        · exact Or.inr (Or.inr h3)

theorem foldl_slugStep_pkPar (ov : String → Bool) (objectName s n : String) :
    ∀ (victims : List Page) (d : Db),
      (∀ r ∈ victims, ∃ rr, getPage d r.pk = some rr ∧ rr.parentId = r.parentId) →
      (∀ k, parentOf (victims.foldl (slugStep ov objectName s n) d) k = parentOf d k) ∧
      pks (victims.foldl (slugStep ov objectName s n) d) = pks d := by
  intro victims
  induction victims with
  | nil => intro d _; exact ⟨fun k => rfl, rfl⟩
  | cons v rest ih =>
    intro d hv
    rw [List.foldl_cons]
    by_cases ho : ov v.slug
    · have hstep : slugStep ov objectName s n d v = d := by
        unfold slugStep
        rw [if_pos ho]
      rw [hstep]
      exact ih d (fun r hr => hv r (List.mem_cons_of_mem v hr))
    · obtain ⟨rr, hrr, hrrpar⟩ := hv v (List.mem_cons_self v rest)
      have hstep : slugStep ov objectName s n d v =
          dbSave d (Page.save objectName d { v with slug := n ++ pyDrop v.slug s.length }).1 := by
        unfold slugStep
        rw [if_neg ho, save_snd_eq]
      rw [hstep]
      have hsavedpk :
          (Page.save objectName d { v with slug := n ++ pyDrop v.slug s.length }).1.pk = v.pk :=
        (save_fst_fields _ _ _).1
      have hsavedpar :
          (Page.save objectName d { v with slug := n ++ pyDrop v.slug s.length }).1.parentId =
            v.parentId := (save_fst_fields _ _ _).2.1
      have hany : d.any (fun r2 =>
          r2.pk == (Page.save objectName d { v with slug := n ++ pyDrop v.slug s.length }).1.pk)
          = true := by
        rw [hsavedpk, any_pk_iff]
        exact (mem_pks_iff d v.pk).mpr
          ⟨rr, (getPage_mem d v.pk rr hrr).1, (getPage_mem d v.pk rr hrr).2⟩
      have hpar1 : ∀ k, parentOf (dbSave d
          (Page.save objectName d { v with slug := n ++ pyDrop v.slug s.length }).1) k =
          parentOf d k := by
        intro k
        unfold parentOf
        rw [getPage_dbSave, hsavedpk]
        by_cases hk : k = v.pk
        · rw [if_pos hk, hk, hrr]
          simp [hsavedpar, hrrpar]
        · rw [if_neg hk]
      have hpks1 : pks (dbSave d
          (Page.save objectName d { v with slug := n ++ pyDrop v.slug s.length }).1) = pks d :=
        pks_dbSave_present d _ hany
      have hv1 : ∀ r ∈ rest, ∃ rr2, getPage (dbSave d
          (Page.save objectName d { v with slug := n ++ pyDrop v.slug s.length }).1) r.pk =
          some rr2 ∧ rr2.parentId = r.parentId := by
        intro r hr
        obtain ⟨rr3, hrr3, hrr3par⟩ := hv r (List.mem_cons_of_mem v hr)
        rw [getPage_dbSave, hsavedpk]
        by_cases hk : r.pk = v.pk
        · refine ⟨_, by rw [if_pos hk], ?_⟩
          rw [hk, hrr] at hrr3
          injection hrr3 with he
          rw [hsavedpar, ← hrr3par, ← he]
          exact hrrpar.symm
        · exact ⟨rr3, by rw [if_neg hk]; exact hrr3, hrr3par⟩
      obtain ⟨hpar2, hpks2⟩ := ih _ hv1
      exact ⟨fun k => (hpar2 k).trans (hpar1 k), hpks2.trans hpks1⟩

theorem chainF_none (f : Nat → Option Nat) : ∀ g, chainF f g none = [] := by
  intro g
  cases g <;> rfl

theorem not_reach_iff_bounded {f : Nat → Option Nat} {S : List Nat} (hac : AcyclicF f S)
    (hcl : ClosedF f S) {pid : Option Nat} (hpid : ∀ j, pid = some j → j ∈ S) (x : Nat) :
    (∃ g, x ∈ chainF f g pid) ↔ x ∈ chainF f S.length pid := by
  constructor
  · rintro ⟨g, hg⟩
    have hb := mem_chainF_bound hac hcl hpid hg
    have hlen : (chainF f (S.length + 1) pid).length ≤ S.length :=
      length_le_of_nodup_subset (chainF_nodup hac hcl _ hpid) (chainF_subset hcl _ hpid)
    rw [chainF_take f (Nat.le_succ S.length) pid, List.take_of_length_le hlen]
    exact hb
  · intro hm
    exact ⟨S.length, hm⟩

theorem acyclicB_of_acyclicF (db : Db) (h : AcyclicF (parentOf db) (pks db)) :
    acyclicB db = true := by
  unfold acyclicB
  rw [List.all_eq_true]
  intro k hk
  have hnot := h k hk (db.length + 1)
  simp only [Bool.not_eq_true']
  rw [← Bool.not_eq_true]
  intro hcont
  apply hnot
  simp only [List.contains_eq_any_beq, List.any_eq_true] at hcont
  obtain ⟨a, ha, hba⟩ := hcont
  have hka : k = a := by simpa using hba
  rw [← hka] at ha
  exact ha

theorem set_parent_ok_structure (ov : String → Bool) (objectName : String) (db : Db)
    (p : Page) (new_parent : Option Page) (hnd : (pks db).Nodup) :
    ∀ p2 db2, Page.set_parent ov objectName db p new_parent = Except.ok (p2, db2) →
      p2.parentId = new_parent.map Page.pk ∧
      (∀ k, parentOf db2 k =
        if k = p.pk then new_parent.map Page.pk else parentOf db k) ∧
      (∀ k, k ∈ pks db2 ↔ k ∈ pks db ∨ k = p.pk) ∧
      (pks db2).Nodup := by
  intro p2 db2 h
  unfold Page.set_parent at h
  by_cases hcc : cycleCheck db p.pk (db.length + 1) new_parent
  · rw [if_pos hcc] at h
    cases h
  · rw [if_neg hcc] at h
    dsimp only at h
    have hpsvpk : (Page.save objectName db
        { p with parentId := new_parent.map Page.pk }).1.pk = p.pk :=
      (save_fst_fields _ _ _).1
    have hpsvpar : (Page.save objectName db
        { p with parentId := new_parent.map Page.pk }).1.parentId =
        new_parent.map Page.pk := (save_fst_fields _ _ _).2.1
    have hdb1eq : (Page.save objectName db { p with parentId := new_parent.map Page.pk }).2 =
        dbSave db (Page.save objectName db { p with parentId := new_parent.map Page.pk }).1 :=
      save_snd_eq _ _ _
    have hpar1 : ∀ k, parentOf (Page.save objectName db
        { p with parentId := new_parent.map Page.pk }).2 k =
        if k = p.pk then new_parent.map Page.pk else parentOf db k := by
      intro k
      rw [hdb1eq]
      unfold parentOf
      rw [getPage_dbSave, hpsvpk]
      by_cases hk : k = p.pk
      · rw [if_pos hk, if_pos hk]
        simp [hpsvpar]
      · rw [if_neg hk, if_neg hk]
    have hpks1 : ∀ k, k ∈ pks (Page.save objectName db
        { p with parentId := new_parent.map Page.pk }).2 ↔ k ∈ pks db ∨ k = p.pk := by
      intro k
      rw [hdb1eq]
      by_cases hany : db.any (fun r2 => r2.pk ==
          (Page.save objectName db { p with parentId := new_parent.map Page.pk }).1.pk) = true
      · rw [pks_dbSave_present db _ hany]
        constructor
        · exact Or.inl
        · rintro (hmem | rfl)
          · exact hmem
          · have := (any_pk_iff db _).mp hany
            rwa [hpsvpk] at this
      · rw [pks_dbSave_absent db _ hany, List.mem_append, hpsvpk]
        simp
    have hnd1 : (pks (Page.save objectName db
        { p with parentId := new_parent.map Page.pk }).2).Nodup := by
      rw [hdb1eq]
      by_cases hany : db.any (fun r2 => r2.pk ==
          (Page.save objectName db { p with parentId := new_parent.map Page.pk }).1.pk) = true
      · rw [pks_dbSave_present db _ hany]
        exact hnd
      · rw [pks_dbSave_absent db _ hany]
        have hnot : (Page.save objectName db
            { p with parentId := new_parent.map Page.pk }).1.pk ∉ pks db := by
          rw [← any_pk_iff]
          simpa using hany
        simp [List.nodup_append, hnd, hnot]
    have hslug : ∀ m : String,
        (∀ k, parentOf (Page.set_slug ov objectName
            (Page.save objectName db { p with parentId := new_parent.map Page.pk }).2
            (Page.save objectName db { p with parentId := new_parent.map Page.pk }).1 m).2 k =
          parentOf (Page.save objectName db
            { p with parentId := new_parent.map Page.pk }).2 k) ∧
        pks (Page.set_slug ov objectName
            (Page.save objectName db { p with parentId := new_parent.map Page.pk }).2
            (Page.save objectName db { p with parentId := new_parent.map Page.pk }).1 m).2 =
          pks (Page.save objectName db { p with parentId := new_parent.map Page.pk }).2 := by
      intro m
      exact foldl_slugStep_pkPar ov objectName _ m _ _ (by
        intro r hr
        exact ⟨r, getPage_self _ r hnd1 (List.mem_filter.mp hr).1, rfl⟩)
    split at h
    · split at h
      · injection h with h2
        have hp2 := congrArg Prod.fst h2
        have hdb2 := congrArg Prod.snd h2
        subst hp2
        subst hdb2
        refine ⟨hpsvpar, fun k => ((hslug _).1 k).trans (hpar1 k), fun k => ?_, ?_⟩
        · rw [show pks (Page.set_slug ov objectName
              (Page.save objectName db { p with parentId := new_parent.map Page.pk }).2
              (Page.save objectName db { p with parentId := new_parent.map Page.pk }).1 _).2 =
            pks (Page.save objectName db { p with parentId := new_parent.map Page.pk }).2
            from (hslug _).2]
          exact hpks1 k
        · rw [show pks (Page.set_slug ov objectName
              (Page.save objectName db { p with parentId := new_parent.map Page.pk }).2
              (Page.save objectName db { p with parentId := new_parent.map Page.pk }).1 _).2 =
            pks (Page.save objectName db { p with parentId := new_parent.map Page.pk }).2
            from (hslug _).2]
          exact hnd1
      · split at h
        · injection h with h2
          have hp2 := congrArg Prod.fst h2
          have hdb2 := congrArg Prod.snd h2
          subst hp2
          subst hdb2
          refine ⟨hpsvpar, fun k => ((hslug _).1 k).trans (hpar1 k), fun k => ?_, ?_⟩
          · rw [show pks (Page.set_slug ov objectName
                (Page.save objectName db { p with parentId := new_parent.map Page.pk }).2
                (Page.save objectName db { p with parentId := new_parent.map Page.pk }).1 _).2 =
              pks (Page.save objectName db { p with parentId := new_parent.map Page.pk }).2
              from (hslug _).2]
            exact hpks1 k
          · rw [show pks (Page.set_slug ov objectName
                (Page.save objectName db { p with parentId := new_parent.map Page.pk }).2
                (Page.save objectName db { p with parentId := new_parent.map Page.pk }).1 _).2 =
              pks (Page.save objectName db { p with parentId := new_parent.map Page.pk }).2
              from (hslug _).2]
            exact hnd1
        · injection h with h2
          have hp2 := congrArg Prod.fst h2
          have hdb2 := congrArg Prod.snd h2
          subst hp2
          subst hdb2
          exact ⟨hpsvpar, hpar1, hpks1, hnd1⟩
    · injection h with h2
      have hp2 := congrArg Prod.fst h2
      have hdb2 := congrArg Prod.snd h2
      subst hp2
      subst hdb2
      exact ⟨hpsvpar, hpar1, hpks1, hnd1⟩

theorem set_parent_no_cycle (ov : String → Bool) (objectName : String) (db : Db)
    (p : Page) (new_parent : Option Page) (p2 : Page) (db2 : Db)
    (h : Page.set_parent ov objectName db p new_parent = Except.ok (p2, db2)) :
    cycleCheck db p.pk (db.length + 1) new_parent = false := by
  cases hccb : cycleCheck db p.pk (db.length + 1) new_parent with
  | false => rfl
  | true =>
    exfalso
    have herr : Page.set_parent ov objectName db p new_parent = Except.error (p, db) := by
      unfold Page.set_parent
      rw [if_pos hccb]
    rw [herr] at h
    cases h

/-- Under the table invariants, the cycle check of `set_parent` not firing
means the page's key is unreachable from the new parent's key. -/
theorem not_reach_of_no_cycle (db : Db) (p : Page) (q : Page) (hnd : (pks db).Nodup)
    (hclb : ClosedB db = true) (hacb : acyclicB db = true) (hqdb : q ∈ db)
    (hcc : cycleCheck db p.pk (db.length + 1) (some q) = false) :
    ∀ g, p.pk ∉ chainF (parentOf db) g (some q.pk) := by
  have hcl := closedF_of_closedB db hclb
  have hac := acyclicF_of_acyclicB db hclb hacb
  have hfq : parentOf db q.pk = q.parentId := by
    unfold parentOf
    rw [getPage_self db q hnd hqdb]
    rfl
  have hqrefs : ∀ j, q.parentId = some j → j ∈ pks db := by
    intro j hj
    exact hcl q.pk j (by rw [hfq]; exact hj)
  have hiff := cycleCheck_iff db p.pk hcl db.length q hqrefs
  rw [hcc] at hiff
  simp only [Bool.false_eq_true, false_iff] at hiff
  push_neg at hiff
  obtain ⟨hqpk, hmemN⟩ := hiff
  intro g hmem
  cases g with
  | zero => simp [chainF] at hmem
  | succ g2 =>
    rcases List.mem_cons.mp hmem with heq | hmem2
    · exact hqpk heq.symm
    · rw [hfq] at hmem2
      have hex : ∃ g3, p.pk ∈ chainF (parentOf db) g3 q.parentId := ⟨g2, hmem2⟩
      have hmemlen := (not_reach_iff_bounded hac hcl hqrefs p.pk).mp hex
      have hlen : (pks db).length = db.length := by simp [pks]
      rw [hlen] at hmemlen
      exact hmemN hmemlen

/-- C2: if the stored parent pointers are an acyclic forest before
`Page.set_parent`, they still are after it, whether the call raises the
cycle error or completes normally. -/
theorem C2_set_parent_preserves_forest (ov : String → Bool) (objectName : String) (db : Db)
    (p : Page) (new_parent : Option Page) (hnd : (pks db).Nodup)
    (hclb : ClosedB db = true) (hacb : acyclicB db = true)
    (hq : ∀ q, new_parent = some q → q ∈ db) :
    (∀ s, Page.set_parent ov objectName db p new_parent = Except.error s →
      acyclicB s.2 = true) ∧
    (∀ p2 db2, Page.set_parent ov objectName db p new_parent = Except.ok (p2, db2) →
      acyclicB db2 = true) := by
  have hac := acyclicF_of_acyclicB db hclb hacb
  constructor
  · intro s h
    rw [set_parent_error ov objectName db p new_parent s h]
    exact hacb
  · intro p2 db2 h
    obtain ⟨hp2par, hpar, hpks, hnd2⟩ :=
      set_parent_ok_structure ov objectName db p new_parent hnd p2 db2 h
    have hcc := set_parent_no_cycle ov objectName db p new_parent p2 db2 h
    have hnr : ∀ g, p.pk ∉ chainF (parentOf db) g (new_parent.map Page.pk) := by
      cases hnp : new_parent with
      | none =>
        intro g
        rw [show (Option.map Page.pk (none : Option Page)) = none from rfl, chainF_none]
        exact List.not_mem_nil p.pk
      | some q =>
        rw [hnp] at hcc
        exact not_reach_of_no_cycle db p q hnd hclb hacb (hq q hnp) hcc
    have hagree : ∀ k, k ≠ p.pk → parentOf db2 k = parentOf db k := by
      intro k hk
      rw [hpar k, if_neg hk]
    have hfp : parentOf db2 p.pk = new_parent.map Page.pk := by
      rw [hpar p.pk, if_pos rfl]
    have hS2 : ∀ k, k ∈ pks db2 → k ∈ pks db ∨ k = p.pk := fun k hk => (hpks k).mp hk
    exact acyclicB_of_acyclicF db2 (acyclicF_update hac hnr hagree hfp hS2)

/-- C1: `Page.set_parent` raises its error exactly when the page occurs in
the candidate parent's ancestor chain: the candidate is the page itself (has
its primary key) or some page reached by following the candidate's chain of
parents has the page's primary key.  When it does not raise, the page's
parent becomes the candidate and the page is saved with that parent. -/
theorem C1_set_parent_cycle_error (ov : String → Bool) (objectName : String) (db : Db)
    (p : Page) (new_parent : Option Page) (hnd : (pks db).Nodup)
    (hclb : ClosedB db = true) (hacb : acyclicB db = true)
    (hq : ∀ q, new_parent = some q → q ∈ db) :
    ((∃ s, Page.set_parent ov objectName db p new_parent = Except.error s) ↔
      (∃ q, new_parent = some q ∧
        (q.pk = p.pk ∨ ∃ g, p.pk ∈ chainF (parentOf db) g q.parentId))) ∧
    (∀ p2 db2, Page.set_parent ov objectName db p new_parent = Except.ok (p2, db2) →
      p2.parentId = new_parent.map Page.pk ∧
      ∃ r2, getPage db2 p.pk = some r2 ∧ r2.parentId = new_parent.map Page.pk) := by
  have hcl := closedF_of_closedB db hclb
  have hac := acyclicF_of_acyclicB db hclb hacb
  constructor
  · have herr_iff : (∃ s, Page.set_parent ov objectName db p new_parent = Except.error s) ↔
        cycleCheck db p.pk (db.length + 1) new_parent = true := by
      constructor
      · rintro ⟨s, hs⟩
        cases hccb : cycleCheck db p.pk (db.length + 1) new_parent with
        | true => rfl
        | false =>
          exfalso
          unfold Page.set_parent at hs
          rw [if_neg (by rw [hccb]; exact Bool.false_ne_true)] at hs
          dsimp only at hs
          split at hs
          · split at hs
            · cases hs
            · split at hs
              · cases hs
              · cases hs
          · cases hs
      · intro hcc
        exact ⟨(p, db), by unfold Page.set_parent; rw [if_pos hcc]⟩
    rw [herr_iff]
    cases hnp : new_parent with
    | none =>
      rw [show cycleCheck db p.pk (db.length + 1) none = false from rfl]
      simp
    | some q =>
      have hqdb : q ∈ db := hq q hnp
      have hfq : parentOf db q.pk = q.parentId := by
        unfold parentOf
        rw [getPage_self db q hnd hqdb]
        rfl
      have hqrefs : ∀ j, q.parentId = some j → j ∈ pks db := by
        intro j hj
        exact hcl q.pk j (by rw [hfq]; exact hj)
      obtain ⟨N, hN⟩ : ∃ N, db.length = N + 1 := by
        cases db with
        | nil => simp at hqdb
        | cons a l => exact ⟨l.length, by simp⟩
      have hiff := cycleCheck_iff db p.pk hcl db.length q hqrefs
      have hboundiff := not_reach_iff_bounded hac hcl hqrefs p.pk
      have hlen : (pks db).length = db.length := by simp [pks]
      rw [hlen] at hboundiff
      constructor
      · intro hcc
        exact ⟨q, rfl, by
          rcases hiff.mp hcc with h1 | h2
          · exact Or.inl h1
          · exact Or.inr (hboundiff.mpr h2)⟩
      · rintro ⟨q2, hq2, hcase⟩
        injection hq2 with hq2e
        subst hq2e
        apply hiff.mpr
        rcases hcase with h1 | h2
        · exact Or.inl h1
        · exact Or.inr (hboundiff.mp h2)
  · intro p2 db2 h
    obtain ⟨hp2par, hpar, hpks, hnd2⟩ :=
      set_parent_ok_structure ov objectName db p new_parent hnd p2 db2 h
    refine ⟨hp2par, ?_⟩
    have hmem : p.pk ∈ pks db2 := (hpks p.pk).mpr (Or.inr rfl)
    obtain ⟨r2, hget⟩ := getPage_of_mem_pks db2 p.pk hmem
    refine ⟨r2, hget, ?_⟩
    have hthis := hpar p.pk
    rw [if_pos rfl] at hthis
    unfold parentOf at hthis
    rw [hget] at hthis
    simpa using hthis

/-- A two-page table used to evaluate the theorems on concrete data: a root
page and one child. -/
def wr1 : Page :=
  { pk := 1, parentId := none, title := "a", slug := "a", titles := "a",
    contentModel := "page", hasId := true }

def wr2 : Page :=
  { pk := 2, parentId := some 1, title := "b", slug := "a/b", titles := "a / b",
    contentModel := "page", hasId := true }

def wdb : Db := [wr1, wr2]

/-- A urlconf in which no page slug is overridden. -/
def wov : String → Bool := fun _ => false

def wobj : String := "Page"

/-- The page and table produced by moving the child to the root. -/
def wp2x : Page :=
  { pk := 2, parentId := none, title := "b", slug := "b", titles := "b",
    contentModel := "page", hasId := true }

def wdb2x : Db := [wr1, wp2x]

/-- A fresh, unsaved page under the child. -/
def wnew : Page :=
  { pk := 3, parentId := some 2, title := "c", slug := "", titles := "",
    contentModel := "", hasId := false }

theorem C1_set_parent_cycle_error_witness :
    ∃ s, Page.set_parent wov wobj wdb wr1 (some wr2) = Except.error s :=
  (C1_set_parent_cycle_error wov wobj wdb wr1 (some wr2) (by decide) (by decide) (by decide)
      (by intro q hq; injection hq with h; rw [← h]; decide)).1.mpr
    ⟨wr2, rfl, Or.inr ⟨2, by decide⟩⟩

theorem C2_set_parent_preserves_forest_witness :
    acyclicB wdb = true ∧ acyclicB wdb2x = true :=
  ⟨by decide,
    (C2_set_parent_preserves_forest wov wobj wdb wr2 none (by decide) (by decide) (by decide)
        (by intro q hq; exact Option.noConfusion hq)).2 wp2x wdb2x (by rfl)⟩

theorem C3_set_slug_witness :
    ∃ r2, getPage (Page.set_slug wov wobj wdb wr1 "x").2 wr2.pk = some r2 ∧
      r2.slug = "x" ++ pyDrop wr2.slug wr1.slug.length :=
  (C3_set_slug wov wobj wdb wr1 "x" (by decide)).2 wr2 (by decide) (by decide) rfl

theorem C4_get_slug_witness :
    Page.get_slug (fun t => t) wdb wr2 = some (wr1.slug ++ "/" ++ wr2.title) ∧
    Page.get_slug (fun t => t) wdb wr1 = some wr1.title :=
  ⟨(C4_get_slug (fun t => t) wdb wr2).2 1 wr1 rfl (by decide),
    (C4_get_slug (fun t => t) wdb wr1).1 rfl⟩

theorem C5_get_ascendants_witness :
    Page.get_ascendants wdb wr2 none =
      (parentChain wdb wdb.length wr2.parentId,
        some (parentChain wdb wdb.length wr2.parentId)) :=
  ((C5_get_ascendants wdb wr2 none (by decide) (by decide) (by decide) (by decide)
      (by decide)).2 1 rfl).1

theorem C6_save_titles_witness :
    (Page.save wobj wdb wnew).1.titles =
      String.intercalate " / "
        (((parentChain wdb wdb.length wnew.parentId).map Page.title).reverse ++
          [wnew.title]) ∧
    (Page.save wobj wdb wnew).1.contentModel = wobj.toLower :=
  ⟨(C6_save_titles wobj wdb wnew).1, (C6_save_titles wobj wdb wnew).2.1 rfl⟩

def wu1 : User := { uid := 1, email := "p@example.com", groups := ["Publisher"] }

def wu2 : User := { uid := 2, email := "q@example.com", groups := ["Publisher", "G"] }

def wusers : List User := [wu1, wu2]

theorem C7_send_pending_email_witness :
    (send_pending_email wusers (some "G") "page" "example.com" "/admin/1").body =
      "http://" ++ "example.com" ++ "/admin/1" :=
  (C7_send_pending_email wusers (some "G") "page" "example.com" "/admin/1").2.2.2

theorem C8_current_status_witness :
    current_status CONTENT_STATUS_DRAFT (some Moderated.PENDING) 0 1 "d" =
      ("pending", "Pending approval") :=
  ((C8_current_status CONTENT_STATUS_DRAFT (some Moderated.PENDING) 0 1 "d").1 rfl).1 rfl

theorem C9_set_parent_error_frame_witness :
    Page.set_parent wov wobj wdb wr1 (some wr2) = Except.error (wr1, wdb) ∧
    ((wr1, wdb) : Page × Db) = (wr1, wdb) :=
  ⟨by rfl, C9_set_parent_error_frame wov wobj wdb wr1 (some wr2) (wr1, wdb) (by rfl)⟩

theorem C10_set_slug_frame_witness :
    getPage (Page.set_slug wov wobj wdb wr2 "z").2 wr1.pk = some wr1 :=
  C10_set_slug_frame wov wobj wdb wr2 "z" (by decide) wr1 (by decide) (Or.inl (by decide))

end Mezzanine
